import Mathlib

/-!
Verification of the MKS dimensional-analysis module (src/MKS.py).

The development shallowly embeds the two components of the module:

* `Dimensions` — the tally of signed integer exponents over the seven SI
  base dimensions, with construction from the compact string form
  (`Dimensions.__init__`), elementwise addition (`__add__`), scalar
  scaling (`__mul__`), the canonical machine string (`__str__`) and the
  human-readable form (`pretty`).

* `Measurement` — a numeric payload paired with a `Dimensions` value,
  with the operator surface (`__new__`, `__call__`, `__add__`, `__mul__`,
  `__truediv__`, `__pow__`, comparisons, `__hash__`) and the registration
  function `define`.

Strings are modelled as `List Char`; Python numbers are modelled by the
`Value` type (exact integers and exact rationals standing for floats;
see `Value`).  Python exceptions and the `exit()` call in
`Measurement.__call__` are modelled with `Except`.
-/

namespace MKS

/-- The seven base-dimension keys of the BASE table, in its literal
(insertion) order I, J, L, M, N, O, T. -/
inductive Key
  | I
  | J
  | L
  | M
  | N
  | O
  | T
deriving DecidableEq, Repr, Fintype

/-- The BASE key list in Python dict iteration order. -/
def keys : List Key := [.I, .J, .L, .M, .N, .O, .T]

/-- The single-letter dict key of each base dimension. -/
def keyChar : Key → Char
  | .I => 'I'
  | .J => 'J'
  | .L => 'L'
  | .M => 'M'
  | .N => 'N'
  | .O => 'O'
  | .T => 'T'

/-- Reverse lookup of `keyChar`: models dict key membership in
`Dimensions.__getitem__` (a missing key raises KeyError). -/
def keyOfChar (c : Char) : Option Key :=
  if c = 'I' then some .I
  else if c = 'J' then some .J
  else if c = 'L' then some .L
  else if c = 'M' then some .M
  else if c = 'N' then some .N
  else if c = 'O' then some .O
  else if c = 'T' then some .T
  else none

/-- The unit symbol of each base dimension (the values of BASE). -/
def baseSym : Key → List Char
  | .I => ("A").toList
  | .J => ("cd").toList
  | .L => ("m").toList
  | .M => ("kg").toList
  | .N => ("mol").toList
  | .O => ("K").toList
  | .T => ("s").toList

/-- A dimension vector: the exponent tally held by a `Dimensions` dict,
one signed integer per base key. -/
abbrev Dimensions := Key → ℤ

instance : DecidableEq Dimensions := fun a b =>
  decidable_of_iff (∀ k, a k = b k) ⟨funext, fun h k => by rw [h]⟩

/-- The all-zero (dimensionless) vector: `Dimensions()`. -/
def zeroDims : Dimensions := fun _ => 0

/-- Exception raised while parsing the compact dimension string:
`keyError c` models the KeyError raised by `self[c] += 1` on a character
that is not a BASE key, `unpackError` models the ValueError raised by
unpacking `string.split` into two names when two or more separators
occur. -/
inductive ParseErr
  | keyError (c : Char)
  | unpackError
deriving DecidableEq, Repr

/-- One pass of the per-character tally loops in `Dimensions.__init__`:
`sgn` is `+1` for the part before the separator and `-1` after. -/
def tally (sgn : ℤ) : List Char → Dimensions → Except ParseErr Dimensions
  | [], d => .ok d
  | c :: rest, d =>
      match keyOfChar c with
      | some k => tally sgn rest (fun k2 => if k2 = k then d k2 + sgn else d k2)
      | none => .error (.keyError c)

/-- Python `string.strip` of the character 1 from both ends. -/
def stripOnes (l : List Char) : List Char :=
  (((l.dropWhile (fun c => c = '1')).reverse.dropWhile (fun c => c = '1'))).reverse

/-- Python `string.split` on the separator character. -/
def splitSlash : List Char → List (List Char)
  | [] => [[]]
  | c :: rest =>
      if c = '/' then [] :: splitSlash rest
      else
        match splitSlash rest with
        | [] => [[c]]
        | r :: rs => (c :: r) :: rs

/-- `Dimensions.__init__`: strip the dimensionless marker, split on the
separator (unpacking into exactly two parts when a separator occurs),
then increment per character before the separator and decrement after. -/
def parseDims (s : List Char) : Except ParseErr Dimensions :=
  let s := stripOnes s
  match splitSlash s with
  | [p] => tally 1 p zeroDims
  | [p, n] => do tally (-1) n (← tally 1 p zeroDims)
  | _ => .error .unpackError

/-- `Dimensions.__add__`: elementwise sum over the seven keys. -/
def dimAdd (a b : Dimensions) : Dimensions := fun k => a k + b k

/-- Python `int()` applied to a rational: truncation toward zero. -/
def intTrunc (q : ℚ) : ℤ := if q < 0 then -(Int.floor (-q)) else Int.floor q

/-- Boolean lexicographic order on strings, as Python compares them. -/
def lexLeB : List Char → List Char → Bool
  | [], _ => true
  | _ :: _, [] => false
  | a :: as, b :: bs => if a < b then true else if b < a then false else lexLeB as bs

/-- Python `sorted` on a list of strings (a stable sort in lexicographic
order; Mathlib insertion sort is stable in the same sense). -/
def sortStrs (l : List (List Char)) : List (List Char) :=
  List.insertionSort (fun a b => lexLeB a b = true) l

/-- The per-key letter runs of the positive exponents, in dict iteration
order: the generator `(k*i for k, i in self.items() if i > 0)`. -/
def runsPos (v : Dimensions) : List (List Char) :=
  keys.filterMap fun k =>
    if 0 < v k then some (List.replicate (v k).toNat (keyChar k)) else none

/-- The per-key letter runs of the negative exponents:
`(k*(-i) for k, i in self.items() if i < 0)`. -/
def runsNeg (v : Dimensions) : List (List Char) :=
  keys.filterMap fun k =>
    if v k < 0 then some (List.replicate (-(v k)).toNat (keyChar k)) else none

/-- The numerator part of `Dimensions.__str__`:
`join(sorted(...)) or 1`. -/
def canonicalTop (v : Dimensions) : List Char :=
  let t := (sortStrs (runsPos v)).flatten
  if t = [] then ['1'] else t

/-- The denominator part of `Dimensions.__str__`. -/
def canonicalBottom (v : Dimensions) : List Char :=
  (sortStrs (runsNeg v)).flatten

/-- `Dimensions.__str__`: the canonical machine form,
`top/bottom` when a negative exponent exists, else `top`. -/
def canonical (v : Dimensions) : List Char :=
  if canonicalBottom v = [] then canonicalTop v
  else canonicalTop v ++ '/' :: canonicalBottom v

/-- The SUP table: regular digit and minus characters to their Unicode
superscript forms.  In the source a character outside the table raises
KeyError; `superscript` only ever applies the table to the decimal form
of an integer, which the table covers totally, so the fallback arm is
unreachable there. -/
def supChar : Char → Char
  | '0' => '⁰'
  | '1' => '¹'
  | '2' => '²'
  | '3' => '³'
  | '4' => '⁴'
  | '5' => '⁵'
  | '6' => '⁶'
  | '7' => '⁷'
  | '8' => '⁸'
  | '9' => '⁹'
  | '-' => '⁻'
  | c => c

/-- The `superscript` helper: map `str(integer)` through SUP. -/
def superscript (i : ℤ) : List Char :=
  (toString i).toList.map supChar

/-- The DERIVED table, in its literal order: canonical dimension string
to derived-unit symbol. -/
def DERIVED : List (List Char × List Char) :=
  [ (("IITTT/LLM").toList, ("S").toList)
  , (("LLM/IITTT").toList, ("ohm").toList)
  , (("LLM/ITTT").toList, ("V").toList)
  , (("LLM/TTT").toList, ("W").toList)
  , (("LLM/TT").toList, ("J").toList)
  , (("LM/TT").toList, ("N").toList)
  , (("M/LTT").toList, ("Pa").toList)
  , (("IT").toList, ("C").toList)
  ]

/-- Dict lookup `DERIVED[s]` guarded by `s in DERIVED`. -/
def derivedLookup (s : List Char) : Option (List Char) :=
  (DERIVED.find? (fun p => p.1 = s)).map (fun p => p.2)

/-- Python `sorted(self, key=self.get)`: the seven keys, stably sorted
by exponent ascending (dict iteration order breaks ties). -/
def sortedKeys (v : Dimensions) : List Key :=
  List.insertionSort (fun a b => v a ≤ v b) keys

/-- Rendering of a key with positive exponent in `Dimensions.pretty`:
bare symbol for exponent 1, else symbol followed by the superscript
exponent. -/
def renderPos (v : Dimensions) (k : Key) : List Char :=
  if v k = 1 then baseSym k else baseSym k ++ superscript (v k)

/-- Rendering of a key with negative exponent in `Dimensions.pretty`:
symbol followed by the signed superscript exponent. -/
def renderNeg (v : Dimensions) (k : Key) : List Char :=
  baseSym k ++ superscript (v k)

/-- The accumulation loop of `Dimensions.pretty`: walk the sorted keys,
appending renderings of positive exponents to the first list and of
negative exponents to the second. -/
def prettyFold (v : Dimensions) : List Key → List (List Char) × List (List Char)
  | [] => ([], [])
  | k :: rest =>
      let r := prettyFold v rest
      if 0 < v k then (renderPos v k :: r.1, r.2)
      else if v k < 0 then (r.1, renderNeg v k :: r.2)
      else r

/-- `Dimensions.pretty`: the derived-unit symbol when the canonical
string is a DERIVED key, else the positive renderings followed by the
reversed negative renderings, joined with the dot separator. -/
def pretty (v : Dimensions) : List Char :=
  match derivedLookup (canonical v) with
  | some s => s
  | none =>
      let r := prettyFold v (sortedKeys v)
      List.intercalate ['.'] (r.1 ++ r.2.reverse)

/-- The pretty form exactly as the specification words it: if the
canonical string matches a known derived-unit combination return that
symbol; otherwise order the base dimensions by signed exponent
ascending, render exponent 1 as the bare symbol and other exponents as
the symbol plus the signed superscript exponent, emit the
positive-exponent terms first in that ascending order, then the
negative-exponent terms reversed, joined with the dot separator.
This definition follows the wording of the spec and is compared with
the source translation `pretty`. -/
def prettySpec (v : Dimensions) : List Char :=
  match derivedLookup (canonical v) with
  | some s => s
  | none =>
      let ks := sortedKeys v
      let pos := (ks.filter (fun k => decide (0 < v k))).map (renderPos v)
      let neg := (ks.filter (fun k => decide (v k < 0))).map (renderNeg v)
      List.intercalate ['.'] (pos ++ neg.reverse)

/-- The numeric payload of a `Measurement`.  `int` is a Python int;
`real` is a Python float, modelled as an exact rational (every float
literal of the module is a finite decimal); `approx` stands for a float
produced by a power with non-integer exponent, whose exact value (an
irrational number in general) is not modelled — no verified claim
depends on such a value. -/
inductive Value
  | int (z : ℤ)
  | real (q : ℚ)
  | approx
deriving DecidableEq, Repr

/-- The rational magnitude of a payload (`approx` is unspecified and
mapped to 0). -/
def valToRat : Value → ℚ
  | .int z => (z : ℚ)
  | .real q => q
  | .approx => 0

/-- `Dimensions.__mul__`: each exponent is multiplied by the power and
passed through `int()`.  With a Python int power the arithmetic stays
exact integer arithmetic and `int(v)` is the identity; with a float
power the product is float and `int()` truncates toward zero.  The
source line `v == int(v)` is a bare expression whose boolean result is
discarded, so no check happens and fractional results are silently
truncated.  A power that is itself an unmodelled float is not modelled
(no claim scales dimensions by such a value). -/
def dimMul (d : Dimensions) (power : Value) : Dimensions :=
  match power with
  | .int n => fun k => d k * n
  | .real q => fun k => intTrunc ((d k : ℚ) * q)
  | .approx => fun k => intTrunc ((d k : ℚ) * 0)

/-- Python multiplication of two numeric payloads: int times int stays
int, otherwise float. -/
def vmul : Value → Value → Value
  | .int a, .int b => .int (a * b)
  | .approx, _ => .approx
  | _, .approx => .approx
  | a, b => .real (valToRat a * valToRat b)

/-- Python addition of two numeric payloads. -/
def vadd : Value → Value → Value
  | .int a, .int b => .int (a + b)
  | .approx, _ => .approx
  | _, .approx => .approx
  | a, b => .real (valToRat a + valToRat b)

/-- Python power of numeric payloads: int to a nonnegative int stays
int, int to a negative int is a float, a non-integer exponent gives an
unmodelled float. -/
def vpow : Value → Value → Value
  | .int a, .int n => if 0 ≤ n then .int (a ^ n.toNat) else .real ((a : ℚ) ^ n)
  | .real q, .int n => .real (q ^ n)
  | _, _ => .approx

/-- A wrapped quantity: the `quantity` and `dimensions` attributes of a
`Measurement` instance whose dimension check kept the wrapper. -/
structure Measurement where
  quantity : Value
  dimensions : Dimensions
deriving DecidableEq

/-- The result type of every constructor and operator: either the bare
payload (the dimensionless degrade of `Measurement.__new__`) or a
wrapped `Measurement`. -/
inductive MValue
  | bare (v : Value)
  | wrapped (m : Measurement)
deriving DecidableEq

instance exceptDecEq {err res : Type} [DecidableEq err] [DecidableEq res] :
    DecidableEq (Except err res)
  | .ok a, .ok b => decidable_of_iff (a = b) (by simp)
  | .ok _, .error _ => .isFalse (by simp)
  | .error _, .ok _ => .isFalse (by simp)
  | .error e, .error f => decidable_of_iff (e = f) (by simp)

/-- The `dimensions` argument of the `Measurement` constructor: user
code passes a compact dimension string, operators pass a `Dimensions`
object. -/
inductive DimArg
  | str (s : List Char)
  | dims (d : Dimensions)

/-- `str(dimensions)` as evaluated by `Measurement.__new__`: a string
argument is its own str; a `Dimensions` argument renders through
`Dimensions.__str__`. -/
def dimArgStr : DimArg → List Char
  | .str s => s
  | .dims d => canonical d

/-- `Measurement.__new__` followed by `__init__` for a payload that is
not itself a `Measurement`: when `str(dimensions)` is the dimensionless
literal the bare payload is returned; otherwise the instance stores the
payload and `Dimensions(str(dimensions))`, reparsed from the string
form (for a `Dimensions` argument the reparse returns an equal vector;
see `parseDims_canonical`). -/
def mkMeasurement (q : Value) (a : DimArg) : Except ParseErr MValue :=
  if dimArgStr a = ['1'] then .ok (.bare q)
  else do
    let d ← parseDims (dimArgStr a)
    .ok (.wrapped ⟨q, d⟩)

/-- The constructor specialised to a `Dimensions` argument, as every
operator invokes it: `Measurement(value, dims)` with the degrade check
on the canonical string.  Total because the reparse of a canonical
string cannot fail. -/
def mkM (q : Value) (d : Dimensions) : MValue :=
  if canonical d = ['1'] then .bare q else .wrapped ⟨q, d⟩

/-- The `units` property: `Measurement(1, self.dimensions)`. -/
def unitsM (x : Measurement) : MValue := mkM (.int 1) x.dimensions

/-- `Measurement.__pow__`: a payload that is the int 1 is kept as the
int 1 without invoking numeric power, the dimension vector is scaled by
the exponent, and the result goes through the constructor degrade. -/
def mpow (x : Measurement) (power : Value) : MValue :=
  let q := if x.quantity = .int 1 then .int 1 else vpow x.quantity power
  mkM q (dimMul x.dimensions power)

/-- `Measurement.__mul__`: with a wrapped operand payloads multiply and
dimension vectors add; with a bare operand (the AttributeError branch)
the dimension vector is unchanged. -/
def mmul (x : Measurement) (o : MValue) : MValue :=
  match o with
  | .wrapped y => mkM (vmul x.quantity y.quantity) (dimAdd x.dimensions y.dimensions)
  | .bare v => mkM (vmul x.quantity v) x.dimensions

/-- `Measurement.__rmul__` (and the bare-times-wrapped path of mixed
products): `Measurement(self.quantity * other, self.dimensions)`. -/
def valueMulM (v : Value) (o : MValue) : MValue :=
  match o with
  | .wrapped y => mkM (vmul y.quantity v) y.dimensions
  | .bare w => .bare (vmul w v)

/-- `Measurement.__truediv__`: `self * other ** -1`. -/
def mdiv (x : Measurement) (o : MValue) : MValue :=
  match o with
  | .wrapped y => mmul x (mpow y (.int (-1)))
  | .bare v => mmul x (.bare (vpow v (.int (-1))))

/-- The message printed by `Measurement.__call__` before `exit()`: the
pretty dimension strings of both operands (the literal 1 for a bare
right operand). -/
structure ExitMsg where
  lunits : List Char
  runits : List Char
deriving DecidableEq, Repr

/-- `Measurement.__call__`: divide by the proposed unit; if the wrapper
was not discarded, print a traceback and the broadcast message and
terminate the process via `exit()` (modelled as the `Except` error);
otherwise return the bare ratio. -/
def mcall (x : Measurement) (o : MValue) : Except ExitMsg Value :=
  match mdiv x o with
  | .wrapped _ =>
      .error ⟨pretty x.dimensions,
              match o with
              | .wrapped y => pretty y.dimensions
              | .bare _ => ['1']⟩
  | .bare v => .ok v

/-- `Measurement.__add__`: with a wrapped operand,
`(x(o.units) + o(o.units)) * o.units`; with a bare operand, `x(o)`. -/
def madd (x : Measurement) (o : MValue) : Except ExitMsg MValue :=
  match o with
  | .wrapped y => do
      let a ← mcall x (unitsM y)
      let b ← mcall y (unitsM y)
      .ok (valueMulM (vadd a b) (unitsM y))
  | .bare v => do
      let a ← mcall x (.bare v)
      .ok (.bare a)

/-- `Measurement.__neg__`: `x * -1`. -/
def mneg (x : Measurement) : MValue := mmul x (.bare (.int (-1)))

/-- `Measurement.__sub__`: `x + -o`. -/
def msub (x : Measurement) (o : Measurement) : Except ExitMsg MValue :=
  madd x (mneg o)

/-- `Measurement.__eq__`: `x(o.units) == o(o.units)` — Python compares
int and float payloads numerically. -/
def meq (x o : Measurement) : Except ExitMsg Bool := do
  let a ← mcall x (unitsM o)
  let b ← mcall o (unitsM o)
  .ok (valToRat a == valToRat b)

/-- `Measurement.__lt__`: `x(o.units) < o(o.units)`. -/
def mlt (x o : Measurement) : Except ExitMsg Bool := do
  let a ← mcall x (unitsM o)
  let b ← mcall o (unitsM o)
  .ok (valToRat a < valToRat b)

/-- `Measurement.__hash__`: constantly 0. -/
def mhash (_ : Measurement) : ℕ := 0

/-- A Python namespace or dict, modelled as an association list in
insertion order. -/
abbrev NS := List (List Char × MValue)

/-- Dict key membership `symbol in namespace`. -/
def nsMem (ns : NS) (sym : List Char) : Bool :=
  ns.any (fun p => p.1 = sym)

/-- Dict item assignment `d[k] = v`: overwrite in place when the key
exists, else append. -/
def setKey (ns : NS) (k : List Char) (v : MValue) : NS :=
  if nsMem ns k then ns.map (fun p => if p.1 = k then (k, v) else p)
  else ns ++ [(k, v)]

/-- Dict lookup `d[k]` as an option. -/
def nsGet (ns : NS) (k : List Char) : Option MValue :=
  (ns.find? (fun p => p.1 = k)).map (fun p => p.2)

/-- Dict update `namespace.update(variables)`: assign every item of the
second dict in its insertion order. -/
def nsUpdate (ns : NS) (vars : NS) : NS :=
  vars.foldl (fun acc p => setKey acc p.1 p.2) ns

/-- The items of `list(BASE.items()) + list(DERIVED.items())` in dict
literal order: pairs of dimension string and symbol. -/
def baseItems : List (List Char × List Char) :=
  [ (("I").toList, ("A").toList)
  , (("J").toList, ("cd").toList)
  , (("L").toList, ("m").toList)
  , (("M").toList, ("kg").toList)
  , (("N").toList, ("mol").toList)
  , (("O").toList, ("K").toList)
  , (("T").toList, ("s").toList)
  , (("IITTT/LLM").toList, ("S").toList)
  , (("LLM/IITTT").toList, ("ohm").toList)
  , (("LLM/ITTT").toList, ("V").toList)
  , (("LLM/TTT").toList, ("W").toList)
  , (("LLM/TT").toList, ("J").toList)
  , (("LM/TT").toList, ("N").toList)
  , (("M/LTT").toList, ("Pa").toList)
  , (("IT").toList, ("C").toList)
  ]

/-- The base and derived unit symbols that the registration loop guards
with the collision check. -/
def baseDerivedSymbols : List (List Char) := baseItems.map (fun p => p.2)

/-- The items of CONSTANTS in dict literal order: symbol, payload and
dimension string.  Float payloads are the exact decimals of the
source literals. -/
def constItems : List (List Char × Value × List Char) :=
  [ (("atm").toList, .int 101325, ("M/LTT").toList)
  , (("R").toList, .real ((83144621 : ℚ) / 10000000), ("MLL/NTTO").toList)
  , (("F").toList, .real ((964853399 : ℚ) / 10000), ("IT/N").toList)
  , (("Da").toList, .real ((1660538921 : ℚ) / (10 ^ 36 : ℚ)), ("M").toList)
  , (("cm").toList, .real ((1 : ℚ) / 100), ("L").toList)
  , (("mm").toList, .real ((1 : ℚ) / 1000), ("L").toList)
  , (("um").toList, .real ((1 : ℚ) / 1000000), ("L").toList)
  , (("nm").toList, .real ((1 : ℚ) / 1000000000), ("L").toList)
  , (("mA").toList, .real ((1 : ℚ) / 1000), ("I").toList)
  ]

/-- Failure of `define`: the NameError raised when a base or derived
symbol already exists in the target namespace, or a propagated parse
error (never hit by the concrete tables). -/
inductive DefineErr
  | nameCollision (sym : List Char)
  | parseFailure (e : ParseErr)
deriving DecidableEq, Repr

/-- The first loop of `define`: for each base and derived item, raise
NameError when the symbol is already in the target namespace, else
store `Measurement(1, dimensions)` in the local `variables` dict. -/
def defineLoop1 (ns : NS) : List (List Char × List Char) → NS → Except DefineErr NS
  | [], vars => .ok vars
  | (dims, sym) :: rest, vars =>
      if nsMem ns sym then .error (.nameCollision sym)
      else
        match mkMeasurement (.int 1) (.str dims) with
        | .error e => .error (.parseFailure e)
        | .ok m => defineLoop1 ns rest (setKey vars sym m)

/-- The second loop of `define`: store every constant without any
collision check. -/
def defineLoop2 : NS → List (List Char × Value × List Char) → Except DefineErr NS
  | vars, [] => .ok vars
  | vars, (sym, q, dims) :: rest =>
      match mkMeasurement q (.str dims) with
      | .error e => .error (.parseFailure e)
      | .ok m => defineLoop2 (setKey vars sym m) rest

/-- `define(namespace)`: build the local `variables` dict with the two
loops, then `namespace.update(variables)`.  The result is the namespace
after the call together with the raised error, if any: an error
propagates before the update, leaving the namespace untouched. -/
def define (ns : NS) : NS × Option DefineErr :=
  match defineLoop1 ns baseItems [] with
  | .error e => (ns, some e)
  | .ok v1 =>
      match defineLoop2 v1 constItems with
      | .error e => (ns, some e)
      | .ok vars => (nsUpdate ns vars, none)

/-! ### Basic facts about the key alphabet -/

lemma keyChar_ne_one (k : Key) : keyChar k ≠ '1' := by cases k <;> decide

lemma keyChar_ne_slash (k : Key) : keyChar k ≠ '/' := by cases k <;> decide

lemma keyOfChar_keyChar (k : Key) : keyOfChar (keyChar k) = some k := by
  cases k <;> decide

lemma keyChar_inj {k1 k2 : Key} (h : keyChar k1 = keyChar k2) : k1 = k2 := by
  cases k1 <;> cases k2 <;> first | rfl | exact absurd h (by decide)

lemma keyOfChar_eq_some {c : Char} {k : Key} (h : keyOfChar c = some k) :
    c = keyChar k := by
  unfold keyOfChar at h
  split_ifs at h <;> simp_all <;> subst h <;> rfl

/-! ### The tally loops of the parser -/

lemma tally_ok (sgn : ℤ) : ∀ (l : List Char) (d : Dimensions),
    (∀ c ∈ l, (keyOfChar c).isSome) →
    tally sgn l d = .ok (fun k => d k + sgn * (l.count (keyChar k) : ℤ)) := by
  intro l
  induction l with
  | nil =>
      intro d _
      simp only [tally, List.count_nil]
      congr 1
      funext k
      simp
  | cons c rest ih =>
      intro d h
      obtain ⟨k', hk'⟩ := Option.isSome_iff_exists.mp (h c (by simp))
      have hc : c = keyChar k' := keyOfChar_eq_some hk'
      simp only [tally, hk']
      rw [ih _ (fun c2 hc2 => h c2 (by simp [hc2]))]
      congr 1
      funext k
      by_cases hkk : k = k'
      · subst hkk
        have hcc : (c == keyChar k) = true := by simp [hc]
        simp only [List.count_cons, hcc, if_true, if_pos rfl]
        push_cast
        ring
      · have hcc : (c == keyChar k) = false := by
          simp only [beq_eq_false_iff_ne, ne_eq]
          intro hcontra
          exact hkk (keyChar_inj (hc ▸ hcontra)).symm
        simp only [List.count_cons, hcc, if_neg, Bool.false_eq_true, if_false]
        have : k ≠ k' := hkk
        simp [this]

lemma tally_error (sgn : ℤ) : ∀ (l : List Char) (d : Dimensions),
    (∃ c ∈ l, keyOfChar c = none) →
    ∃ e, tally sgn l d = .error e := by
  intro l
  induction l with
  | nil => intro d h; simp at h
  | cons c rest ih =>
      intro d h
      cases hk : keyOfChar c with
      | none => exact ⟨.keyError c, by simp [tally, hk]⟩
      | some k' =>
          obtain ⟨c2, hc2, hbad⟩ := h
          rcases List.mem_cons.mp hc2 with rfl | hmem
          · rw [hk] at hbad; cases hbad
          · simpa [tally, hk] using ih _ ⟨c2, hmem, hbad⟩

/-! ### The sort inside the canonical form is the identity

The letter runs are generated in dict iteration order I, J, L, M, N, O,
T, which is already ascending in the first letter, so the Python
`sorted` call returns its input unchanged. -/

lemma lexLeB_replicate {k1 k2 : Key} (h : keyChar k1 < keyChar k2) {m n : ℕ}
    (hm : m ≠ 0) (hn : n ≠ 0) :
    lexLeB (List.replicate m (keyChar k1)) (List.replicate n (keyChar k2)) = true := by
  obtain ⟨m', rfl⟩ := Nat.exists_eq_succ_of_ne_zero hm
  obtain ⟨n', rfl⟩ := Nat.exists_eq_succ_of_ne_zero hn
  simp [List.replicate_succ, lexLeB, h]

lemma runsPos_sorted (v : Dimensions) :
    (runsPos v).Sorted (fun a b => lexLeB a b = true) := by
  unfold runsPos
  rw [List.Sorted, List.pairwise_filterMap]
  have hkeys : keys.Pairwise (fun a b => keyChar a < keyChar b) := by decide
  refine hkeys.imp_of_mem ?_
  intro a b _ _ hab r1 hr1 r2 hr2
  split_ifs at hr1 hr2 with h1 h2
  · simp only [Option.mem_def, Option.some.injEq] at hr1 hr2
    subst hr1
    subst hr2
    exact lexLeB_replicate hab (by omega) (by omega)
  · simp at hr2
  · simp at hr1
  · simp at hr1

lemma runsNeg_sorted (v : Dimensions) :
    (runsNeg v).Sorted (fun a b => lexLeB a b = true) := by
  unfold runsNeg
  rw [List.Sorted, List.pairwise_filterMap]
  have hkeys : keys.Pairwise (fun a b => keyChar a < keyChar b) := by decide
  refine hkeys.imp_of_mem ?_
  intro a b _ _ hab r1 hr1 r2 hr2
  split_ifs at hr1 hr2 with h1 h2
  · simp only [Option.mem_def, Option.some.injEq] at hr1 hr2
    subst hr1
    subst hr2
    exact lexLeB_replicate hab (by omega) (by omega)
  · simp at hr2
  · simp at hr1
  · simp at hr1

lemma sortStrs_runsPos (v : Dimensions) : sortStrs (runsPos v) = runsPos v :=
  (runsPos_sorted v).insertionSort_eq

lemma sortStrs_runsNeg (v : Dimensions) : sortStrs (runsNeg v) = runsNeg v :=
  (runsNeg_sorted v).insertionSort_eq

/-! ### Letter counts in the canonical form -/

lemma count_flatten_filterMap_pos (v : Dimensions) (k : Key) :
    ∀ (l : List Key), l.Nodup →
      ((l.filterMap (fun k2 =>
        if 0 < v k2 then some (List.replicate (v k2).toNat (keyChar k2)) else none)).flatten).count
          (keyChar k)
        = if k ∈ l ∧ 0 < v k then (v k).toNat else 0 := by
  intro l
  induction l with
  | nil => simp
  | cons a rest ih =>
      intro hnd
      rw [List.nodup_cons] at hnd
      rw [List.filterMap_cons]
      by_cases ha : 0 < v a
      · rw [if_pos ha]
        rw [List.flatten_cons, List.count_append, ih hnd.2]
        rw [List.count_replicate]
        by_cases hka : k = a
        · subst hka
          simp only [beq_self_eq_true, if_true, if_pos rfl]
          simp [hnd.1, ha]
        · have : (keyChar a == keyChar k) = false := by
            simp only [beq_eq_false_iff_ne, ne_eq]
            exact fun hc => hka (keyChar_inj hc).symm
          simp only [this, Bool.false_eq_true, if_false, Nat.zero_add]
          have : (k ∈ a :: rest ∧ 0 < v k) ↔ (k ∈ rest ∧ 0 < v k) := by
            simp [List.mem_cons, hka]
          rw [if_congr this rfl rfl]
      · rw [if_neg ha]
        rw [ih hnd.2]
        by_cases hka : k = a
        · subst hka
          simp [ha]
        · have : (k ∈ a :: rest ∧ 0 < v k) ↔ (k ∈ rest ∧ 0 < v k) := by
            simp [List.mem_cons, hka]
          rw [if_congr this rfl rfl]

lemma count_flatten_filterMap_neg (v : Dimensions) (k : Key) :
    ∀ (l : List Key), l.Nodup →
      ((l.filterMap (fun k2 =>
        if v k2 < 0 then some (List.replicate (-(v k2)).toNat (keyChar k2)) else none)).flatten).count
          (keyChar k)
        = if k ∈ l ∧ v k < 0 then (-(v k)).toNat else 0 := by
  intro l
  induction l with
  | nil => simp
  | cons a rest ih =>
      intro hnd
      rw [List.nodup_cons] at hnd
      rw [List.filterMap_cons]
      by_cases ha : v a < 0
      · rw [if_pos ha]
        rw [List.flatten_cons, List.count_append, ih hnd.2]
        rw [List.count_replicate]
        by_cases hka : k = a
        · subst hka
          simp only [beq_self_eq_true, if_true, if_pos rfl]
          simp [hnd.1, ha]
        · have : (keyChar a == keyChar k) = false := by
            simp only [beq_eq_false_iff_ne, ne_eq]
            exact fun hc => hka (keyChar_inj hc).symm
          simp only [this, Bool.false_eq_true, if_false, Nat.zero_add]
          have : (k ∈ a :: rest ∧ v k < 0) ↔ (k ∈ rest ∧ v k < 0) := by
            simp [List.mem_cons, hka]
          rw [if_congr this rfl rfl]
      · rw [if_neg ha]
        rw [ih hnd.2]
        by_cases hka : k = a
        · subst hka
          simp [ha]
        · have : (k ∈ a :: rest ∧ v k < 0) ↔ (k ∈ rest ∧ v k < 0) := by
            simp [List.mem_cons, hka]
          rw [if_congr this rfl rfl]

lemma count_runsPos (v : Dimensions) (k : Key) :
    ((runsPos v).flatten).count (keyChar k)
      = if 0 < v k then (v k).toNat else 0 := by
  have hmem : k ∈ keys := by cases k <;> decide
  have hnd : keys.Nodup := by decide
  rw [runsPos, count_flatten_filterMap_pos v k keys hnd]
  simp [hmem]

lemma count_runsNeg (v : Dimensions) (k : Key) :
    ((runsNeg v).flatten).count (keyChar k)
      = if v k < 0 then (-(v k)).toNat else 0 := by
  have hmem : k ∈ keys := by cases k <;> decide
  have hnd : keys.Nodup := by decide
  rw [runsNeg, count_flatten_filterMap_neg v k keys hnd]
  simp [hmem]

/-! ### Characters occurring in the canonical form -/

lemma mem_runsPos_flatten {v : Dimensions} {c : Char}
    (h : c ∈ (runsPos v).flatten) : ∃ k, c = keyChar k := by
  rcases List.mem_flatten.mp h with ⟨r, hr, hcr⟩
  rcases List.mem_filterMap.mp hr with ⟨k, _, hk⟩
  split_ifs at hk
  · cases hk
    exact ⟨k, List.eq_of_mem_replicate hcr⟩

lemma mem_runsNeg_flatten {v : Dimensions} {c : Char}
    (h : c ∈ (runsNeg v).flatten) : ∃ k, c = keyChar k := by
  rcases List.mem_flatten.mp h with ⟨r, hr, hcr⟩
  rcases List.mem_filterMap.mp hr with ⟨k, _, hk⟩
  split_ifs at hk
  · cases hk
    exact ⟨k, List.eq_of_mem_replicate hcr⟩

/-! ### Strip and split -/

lemma dropWhile_eq_self_of_ne {l : List Char}
    (h : ∀ c ∈ l, c ≠ '1') : l.dropWhile (fun c => c = '1') = l := by
  cases l with
  | nil => rfl
  | cons c rest =>
      have : ¬ (c = '1') := h c (by simp)
      simp [List.dropWhile_cons, this]

lemma stripOnes_eq_self {l : List Char}
    (h : ∀ c ∈ l, c ≠ '1') : stripOnes l = l := by
  unfold stripOnes
  rw [dropWhile_eq_self_of_ne h]
  rw [dropWhile_eq_self_of_ne (fun c hc => h c (List.mem_reverse.mp hc))]
  exact List.reverse_reverse l

lemma stripOnes_one_cons {l : List Char}
    (h : ∀ c ∈ l, c ≠ '1') :
    stripOnes ('1' :: l) = l := by
  unfold stripOnes
  have h1 : ('1' :: l).dropWhile (fun c => c = '1') = l := by
    rw [List.dropWhile_cons]
    simp only [decide_eq_true_eq, if_true]
    exact dropWhile_eq_self_of_ne h
  rw [h1, dropWhile_eq_self_of_ne (fun c hc => h c (List.mem_reverse.mp hc))]
  exact List.reverse_reverse l

lemma splitSlash_ne_nil : ∀ l : List Char, splitSlash l ≠ [] := by
  intro l
  cases l with
  | nil => simp [splitSlash]
  | cons c rest =>
      unfold splitSlash
      split_ifs
      · simp
      · cases h : splitSlash rest <;> simp

lemma splitSlash_no_slash : ∀ {l : List Char}, (∀ c ∈ l, c ≠ '/') →
    splitSlash l = [l] := by
  intro l
  induction l with
  | nil => intro _; rfl
  | cons c rest ih =>
      intro h
      unfold splitSlash
      rw [if_neg (h c (by simp))]
      rw [ih (fun c2 hc2 => h c2 (by simp [hc2]))]

lemma splitSlash_append {a : List Char} (b : List Char)
    (ha : ∀ c ∈ a, c ≠ '/') :
    splitSlash (a ++ '/' :: b) = a :: splitSlash b := by
  induction a with
  | nil => simp [splitSlash]
  | cons c rest ih =>
      have hc : ¬ (c = '/') := ha c (by simp)
      simp only [List.cons_append]
      rw [splitSlash, if_neg hc, ih (fun c2 hc2 => ha c2 (by simp [hc2]))]

/-! ### The parse canonical round trip -/

lemma exBind_ok {ε α β : Type} (a : α) (f : α → Except ε β) :
    (Bind.bind (Except.ok a) f : Except ε β) = f a := rfl

lemma splitSlash_slash_cons (l : List Char) :
    splitSlash ('/' :: l) = [] :: splitSlash l := by
  rw [splitSlash, if_pos rfl]

lemma parseDims_single {s p : List Char}
    (h : splitSlash (stripOnes s) = [p]) :
    parseDims s = tally 1 p zeroDims := by
  simp only [parseDims, h]

lemma parseDims_pair {s p n : List Char}
    (h : splitSlash (stripOnes s) = [p, n]) :
    parseDims s = Bind.bind (tally 1 p zeroDims) (fun d => tally (-1) n d) := by
  simp only [parseDims, h]

lemma not_pos_of_runsPos_nil {v : Dimensions}
    (htop : (runsPos v).flatten = []) : ∀ k, ¬ 0 < v k := by
  intro k hk
  have hmem : List.replicate (v k).toNat (keyChar k) ∈ runsPos v := by
    unfold runsPos
    refine List.mem_filterMap.mpr ⟨k, by cases k <;> decide, ?_⟩
    rw [if_pos hk]
  have hne : (v k).toNat ≠ 0 := by omega
  have := List.flatten_eq_nil_iff.mp htop _ hmem
  rw [List.replicate_eq_nil_iff] at this
  exact hne this

lemma not_neg_of_runsNeg_nil {v : Dimensions}
    (hbot : (runsNeg v).flatten = []) : ∀ k, ¬ v k < 0 := by
  intro k hk
  have hmem : List.replicate (-(v k)).toNat (keyChar k) ∈ runsNeg v := by
    unfold runsNeg
    refine List.mem_filterMap.mpr ⟨k, by cases k <;> decide, ?_⟩
    rw [if_pos hk]
  have hne : (-(v k)).toNat ≠ 0 := by omega
  have := List.flatten_eq_nil_iff.mp hbot _ hmem
  rw [List.replicate_eq_nil_iff] at this
  exact hne this

lemma toNat_arith (z : ℤ) (hpos : ¬ 0 < z → (0 : ℤ) = z) :
    ((if 0 < z then z.toNat else 0 : ℕ) : ℤ) = z := by
  split_ifs with h
  · exact Int.toNat_of_nonneg (le_of_lt h)
  · simpa using hpos h

/-- The reparse of the canonical string returns the original vector:
the round trip at the heart of the spec contract.  Every reachable
string shape is covered: no negative exponents, only negative exponents
(numerator is the literal 1), and the mixed fraction form. -/
theorem parseDims_canonical (v : Dimensions) :
    parseDims (canonical v) = .ok v := by
  have hposChars : ∀ c ∈ (runsPos v).flatten, ∃ k, c = keyChar k :=
    fun c hc => mem_runsPos_flatten hc
  have hnegChars : ∀ c ∈ (runsNeg v).flatten, ∃ k, c = keyChar k :=
    fun c hc => mem_runsNeg_flatten hc
  have hposSome : ∀ c ∈ (runsPos v).flatten, (keyOfChar c).isSome := by
    intro c hc
    obtain ⟨k, rfl⟩ := hposChars c hc
    rw [keyOfChar_keyChar]
    rfl
  have hnegSome : ∀ c ∈ (runsNeg v).flatten, (keyOfChar c).isSome := by
    intro c hc
    obtain ⟨k, rfl⟩ := hnegChars c hc
    rw [keyOfChar_keyChar]
    rfl
  have hposNoOne : ∀ c ∈ (runsPos v).flatten, c ≠ '1' := by
    intro c hc
    obtain ⟨k, rfl⟩ := hposChars c hc
    exact keyChar_ne_one k
  have hnegNoOne : ∀ c ∈ (runsNeg v).flatten, c ≠ '1' := by
    intro c hc
    obtain ⟨k, rfl⟩ := hnegChars c hc
    exact keyChar_ne_one k
  have hposNoSlash : ∀ c ∈ (runsPos v).flatten, c ≠ '/' := by
    intro c hc
    obtain ⟨k, rfl⟩ := hposChars c hc
    exact keyChar_ne_slash k
  have hnegNoSlash : ∀ c ∈ (runsNeg v).flatten, c ≠ '/' := by
    intro c hc
    obtain ⟨k, rfl⟩ := hnegChars c hc
    exact keyChar_ne_slash k
  rw [canonical, canonicalTop, canonicalBottom, sortStrs_runsPos, sortStrs_runsNeg]
  by_cases hbot : (runsNeg v).flatten = []
  · have hnoneg := not_neg_of_runsNeg_nil hbot
    rw [if_pos hbot]
    by_cases htop : (runsPos v).flatten = []
    · -- dimensionless: the canonical form is the literal 1
      have hnopos := not_pos_of_runsPos_nil htop
      simp only [htop, if_pos rfl, if_true]
      have hsplit : splitSlash (stripOnes ['1']) = [[]] := by decide
      rw [parseDims_single hsplit]
      rw [tally_ok 1 [] zeroDims (by simp)]
      congr 1
      funext k
      have h1 := hnopos k
      have h2 := hnoneg k
      simp only [List.count_nil, zeroDims]
      omega
    · -- positive exponents only
      rw [if_neg htop]
      have hsplit : splitSlash (stripOnes ((runsPos v).flatten)) = [(runsPos v).flatten] := by
        rw [stripOnes_eq_self hposNoOne]
        exact splitSlash_no_slash hposNoSlash
      rw [parseDims_single hsplit]
      rw [tally_ok 1 _ zeroDims hposSome]
      congr 1
      funext k
      rw [count_runsPos]
      have h2 := hnoneg k
      rw [zeroDims, zero_add, one_mul]
      exact toNat_arith (v k) (by omega)
  · rw [if_neg hbot]
    by_cases htop : (runsPos v).flatten = []
    · -- only negative exponents: the string is 1/denominator
      have hnopos := not_pos_of_runsPos_nil htop
      simp only [htop, if_pos rfl, if_true]
      have hsplit : splitSlash (stripOnes ('1' :: '/' :: (runsNeg v).flatten)) =
          [[], (runsNeg v).flatten] := by
        have hbothNe : ∀ c ∈ '/' :: (runsNeg v).flatten, c ≠ '1' := by
          intro c hc
          rcases List.mem_cons.mp hc with rfl | hc2
          · decide
          · exact hnegNoOne c hc2
        rw [stripOnes_one_cons hbothNe]
        rw [splitSlash_slash_cons, splitSlash_no_slash hnegNoSlash]
      have hform : (['1'] : List Char) ++ '/' :: (runsNeg v).flatten =
          '1' :: '/' :: (runsNeg v).flatten := rfl
      rw [hform, parseDims_pair hsplit]
      rw [tally_ok 1 [] zeroDims (by simp)]
      rw [exBind_ok]
      rw [tally_ok (-1) _ _ hnegSome]
      congr 1
      funext k
      rw [count_runsNeg]
      have h1 := hnopos k
      simp only [List.count_nil, zeroDims]
      split_ifs with h
      · have hv : ((-(v k)).toNat : ℤ) = -(v k) := Int.toNat_of_nonneg (by omega)
        rw [hv]
        ring
      · omega
    · -- both parts are letter runs
      rw [if_neg htop]
      have hsplit : splitSlash (stripOnes ((runsPos v).flatten ++ '/' :: (runsNeg v).flatten)) =
          [(runsPos v).flatten, (runsNeg v).flatten] := by
        have hall : ∀ c ∈ (runsPos v).flatten ++ '/' :: (runsNeg v).flatten, c ≠ '1' := by
          intro c hc
          rcases List.mem_append.mp hc with hc2 | hc2
          · exact hposNoOne c hc2
          · rcases List.mem_cons.mp hc2 with rfl | hc3
            · decide
            · exact hnegNoOne c hc3
        rw [stripOnes_eq_self hall]
        rw [splitSlash_append _ hposNoSlash]
        rw [splitSlash_no_slash hnegNoSlash]
      rw [parseDims_pair hsplit]
      rw [tally_ok 1 _ zeroDims hposSome]
      rw [exBind_ok]
      rw [tally_ok (-1) _ _ hnegSome]
      congr 1
      funext k
      rw [count_runsPos, count_runsNeg]
      rw [zeroDims, zero_add, one_mul]
      split_ifs with h1 h2 h2
      · omega
      · have hv : ((v k).toNat : ℤ) = v k := Int.toNat_of_nonneg (by omega)
        rw [hv]
        ring
      · have hv : ((-(v k)).toNat : ℤ) = -(v k) := Int.toNat_of_nonneg (by omega)
        rw [hv]
        ring
      · omega

/-! ### The canonical form is the literal 1 exactly on the zero vector -/

lemma canonical_zeroDims : canonical zeroDims = ['1'] := by decide

lemma canonical_eq_one {v : Dimensions} (h : canonical v = ['1']) :
    v = zeroDims := by
  rw [canonical, canonicalTop, canonicalBottom, sortStrs_runsPos, sortStrs_runsNeg] at h
  by_cases hbot : (runsNeg v).flatten = []
  · rw [if_pos hbot] at h
    by_cases htop : (runsPos v).flatten = []
    · have h1 := not_pos_of_runsPos_nil htop
      have h2 := not_neg_of_runsNeg_nil hbot
      funext k
      have := h1 k
      have := h2 k
      simp only [zeroDims]
      omega
    · simp only [htop, if_neg, if_false] at h
      exfalso
      have : '1' ∈ (runsPos v).flatten := by rw [h]; simp
      obtain ⟨k, hk⟩ := mem_runsPos_flatten this
      exact keyChar_ne_one k hk.symm
  · exfalso
    rw [if_neg hbot] at h
    have hmem : '/' ∈ (if (runsPos v).flatten = [] then ['1'] else (runsPos v).flatten)
        ++ '/' :: (runsNeg v).flatten := by simp
    rw [h] at hmem
    simp at hmem

/-- A constructor or operator result that is a wrapper whose dimension
vector renders to the dimensionless literal — the shape the degrade
invariant forbids. -/
def wrapsDimlessM : MValue → Bool
  | .wrapped m => canonical m.dimensions = ['1']
  | .bare _ => false

/-- The same test on a constructor result, false on a parse error. -/
def wrapsDimless : Except ParseErr MValue → Bool
  | .ok m => wrapsDimlessM m
  | .error _ => false

lemma wrapsDimlessM_mkM (q : Value) (d : Dimensions) :
    wrapsDimlessM (mkM q d) = false := by
  rw [mkM]
  split_ifs with h
  · rfl
  · simp [wrapsDimlessM, h]

/-- The constructor invoked with a `Dimensions` object behaves exactly
as `mkM`: the degrade test reads the canonical string and the reparse
restores the same vector. -/
lemma mkMeasurement_dims (q : Value) (d : Dimensions) :
    mkMeasurement q (.dims d) = .ok (mkM q d) := by
  rw [mkMeasurement, mkM, dimArgStr]
  split_ifs with h
  · rfl
  · rw [parseDims_canonical]
    rfl

/-! ### The pretty loop as filters of the sorted key list -/

lemma prettyFold_eq (v : Dimensions) : ∀ ks : List Key,
    prettyFold v ks =
      ((ks.filter (fun k => decide (0 < v k))).map (renderPos v),
       (ks.filter (fun k => decide (v k < 0))).map (renderNeg v)) := by
  intro ks
  induction ks with
  | nil => simp [prettyFold]
  | cons k rest ih =>
      rw [prettyFold, ih]
      rcases lt_trichotomy (v k) 0 with h | h | h
      · have h1 : ¬ 0 < v k := by omega
        simp [List.filter_cons, h, h1]
      · have h1 : ¬ 0 < v k := by omega
        have h2 : ¬ v k < 0 := by omega
        simp [List.filter_cons, h1, h2]
      · have h2 : ¬ v k < 0 := by omega
        simp [List.filter_cons, h, h2]

/-! ### Behaviour of the registration function -/

/-- Whether an `Except` computation succeeded. -/
def exOk {ε α : Type} : Except ε α → Bool
  | .ok _ => true
  | .error _ => false

lemma exOk_exists {ε α : Type} {r : Except ε α} (h : exOk r = true) :
    ∃ a, r = .ok a := by
  cases r with
  | ok a => exact ⟨a, rfl⟩
  | error e => simp [exOk] at h

lemma baseItems_parse_ok :
    ∀ p ∈ baseItems, exOk (mkMeasurement (.int 1) (.str p.1)) = true := by
  decide

/-- The collision loop either raises the NameError of some symbol of
the item list that is present in the namespace, or behaves exactly as
it would over the empty namespace, with no listed symbol present. -/
lemma defineLoop1_cases :
    ∀ (items : List (List Char × List Char)) (ns vars : NS),
    (∀ p ∈ items, exOk (mkMeasurement (.int 1) (.str p.1)) = true) →
    (defineLoop1 ns items vars = defineLoop1 [] items vars
       ∧ ∀ p ∈ items, nsMem ns p.2 = false)
    ∨ (∃ p, p ∈ items ∧ nsMem ns p.2 = true
       ∧ defineLoop1 ns items vars = .error (.nameCollision p.2)) := by
  intro items
  induction items with
  | nil =>
      intro ns vars _
      left
      exact ⟨rfl, by simp⟩
  | cons q rest ih =>
      obtain ⟨dims, sym⟩ := q
      intro ns vars hp
      cases hq : nsMem ns sym with
      | true =>
          right
          refine ⟨(dims, sym), by simp, hq, ?_⟩
          rw [defineLoop1, if_pos hq]
      | false =>
          obtain ⟨m, hm⟩ := exOk_exists (hp (dims, sym) (by simp))
          have hnil : nsMem ([] : NS) sym = false := rfl
          have hrest : ∀ p ∈ rest, exOk (mkMeasurement (.int 1) (.str p.1)) = true :=
            fun p hp2 => hp p (by simp [hp2])
          rcases ih ns (setKey vars sym m) hrest with ⟨heq, hfree⟩ | ⟨p, hpmem, hcol, herr⟩
          · left
            constructor
            · rw [defineLoop1, if_neg (by simp [hq]), hm,
                  defineLoop1, if_neg (by simp [hnil]), hm]
              exact heq
            · intro p hp2
              rcases List.mem_cons.mp hp2 with rfl | hp3
              · exact hq
              · exact hfree p hp3
          · right
            refine ⟨p, by simp [hpmem], hcol, ?_⟩
            rw [defineLoop1, if_neg (by simp [hq]), hm]
            exact herr

/-- The local `variables` dict that `define` builds: independent of the
target namespace once no collision occurred. -/
def registryVars : NS :=
  match defineLoop1 [] baseItems [] with
  | .ok v1 =>
      match defineLoop2 v1 constItems with
      | .ok vars => vars
      | .error _ => []
  | .error _ => []

/-- Full behaviour of `define`: either no base or derived symbol is
present in the target and the call succeeds by updating the namespace
with the built registry, or the call raises the NameError of a present
base or derived symbol and the namespace is returned untouched. -/
lemma define_cases (ns : NS) :
    ((define ns).2 = none ∧ (∀ s ∈ baseDerivedSymbols, nsMem ns s = false)
       ∧ (define ns).1 = nsUpdate ns registryVars)
    ∨ (∃ s ∈ baseDerivedSymbols, nsMem ns s = true
       ∧ (define ns).2 = some (.nameCollision s) ∧ (define ns).1 = ns) := by
  rcases defineLoop1_cases baseItems ns [] baseItems_parse_ok with
    ⟨heq, hfree⟩ | ⟨p, hpmem, hcol, herr⟩
  · left
    cases h1 : defineLoop1 ([] : NS) baseItems [] with
    | error e =>
        exfalso
        have : exOk (defineLoop1 ([] : NS) baseItems []) = true := by decide
        rw [h1] at this
        simp [exOk] at this
    | ok v1 =>
        cases h2 : defineLoop2 v1 constItems with
        | error e =>
            exfalso
            have hnone : (define ([] : NS)).2 = none := by decide
            rw [define] at hnone
            simp only [h1, h2] at hnone
            simp at hnone
        | ok vars =>
            have hreg : registryVars = vars := by
              rw [registryVars]
              simp only [h1, h2]
            have hd : define ns = (nsUpdate ns vars, none) := by
              rw [define, heq]
              simp only [h1, h2]
            refine ⟨by rw [hd], ?_, by rw [hd, hreg]⟩
            intro s hs
            rcases List.mem_map.mp hs with ⟨p, hp2, rfl⟩
            exact hfree p hp2
  · right
    have hd : define ns = (ns, some (.nameCollision p.2)) := by
      rw [define, herr]
    exact ⟨p.2, List.mem_map.mpr ⟨p, hpmem, rfl⟩, hcol, by rw [hd], by rw [hd]⟩

/-! ### Malformed input strings make the parser raise -/

lemma exBind_err {ε α β : Type} (e : ε) (f : α → Except ε β) :
    (Bind.bind (Except.error e) f : Except ε β) = .error e := rfl

lemma count_dropWhile (p : Char → Bool) (c : Char)
    (hp : ∀ x, p x = true → x ≠ c) :
    ∀ l : List Char, (l.dropWhile p).count c = l.count c := by
  intro l
  induction l with
  | nil => rfl
  | cons a rest ih =>
      rw [List.dropWhile_cons]
      cases ha : p a with
      | true =>
          rw [if_pos rfl]
          have : (a == c) = false := by
            simp only [beq_eq_false_iff_ne, ne_eq]
            exact hp a ha
          rw [ih, List.count_cons, this]
          simp
      | false => simp

lemma count_stripOnes {c : Char} (hc : c ≠ '1') (l : List Char) :
    (stripOnes l).count c = l.count c := by
  have hp : ∀ x : Char, decide (x = '1') = true → x ≠ c := by
    intro x hx
    rw [decide_eq_true_eq] at hx
    subst hx
    exact fun hxc => hc hxc.symm
  unfold stripOnes
  rw [List.count_reverse, count_dropWhile _ _ hp, List.count_reverse,
      count_dropWhile _ _ hp]

lemma mem_dropWhile_of_ne {p : Char → Bool} {c : Char} (hpc : p c = false) :
    ∀ {l : List Char}, c ∈ l → c ∈ l.dropWhile p := by
  intro l
  induction l with
  | nil => intro h; simp at h
  | cons a rest ih =>
      intro h
      rw [List.dropWhile_cons]
      cases ha : p a with
      | true =>
          rw [if_pos rfl]
          rcases List.mem_cons.mp h with rfl | hmem
          · rw [ha] at hpc; cases hpc
          · exact ih hmem
      | false =>
          rw [if_neg (by simp)]
          exact h

lemma mem_stripOnes {c : Char} (hc : c ≠ '1') {l : List Char} (h : c ∈ l) :
    c ∈ stripOnes l := by
  have hp : decide (c = '1') = false := by simp [hc]
  unfold stripOnes
  rw [List.mem_reverse]
  refine mem_dropWhile_of_ne hp ?_
  rw [List.mem_reverse]
  exact mem_dropWhile_of_ne hp h

lemma splitSlash_length : ∀ l : List Char,
    (splitSlash l).length = l.count '/' + 1 := by
  intro l
  induction l with
  | nil => rfl
  | cons a rest ih =>
      rw [splitSlash]
      by_cases ha : a = '/'
      · rw [if_pos ha]
        have : (a == '/') = true := by simp [ha]
        simp [List.count_cons, this, ih]
      · rw [if_neg ha]
        cases hsp : splitSlash rest with
        | nil => exact absurd hsp (splitSlash_ne_nil rest)
        | cons r rs =>
            have hlen := ih
            rw [hsp] at hlen
            have : (a == '/') = false := by simp [ha]
            simp only [List.length_cons, List.count_cons, this,
              Bool.false_eq_true, if_false, Nat.add_zero] at hlen ⊢
            omega

lemma mem_splitSlash : ∀ {l : List Char} {c : Char}, c ∈ l → c ≠ '/' →
    ∃ part ∈ splitSlash l, c ∈ part := by
  intro l
  induction l with
  | nil => intro c h; simp at h
  | cons a rest ih =>
      intro c h hc
      rw [splitSlash]
      by_cases ha : a = '/'
      · rw [if_pos ha]
        rcases List.mem_cons.mp h with rfl | hmem
        · exact absurd ha hc
        · obtain ⟨part, hp1, hp2⟩ := ih hmem hc
          exact ⟨part, by simp [hp1], hp2⟩
      · rw [if_neg ha]
        cases hsp : splitSlash rest with
        | nil => exact absurd hsp (splitSlash_ne_nil rest)
        | cons r rs =>
            rcases List.mem_cons.mp h with rfl | hmem
            · exact ⟨c :: r, by simp, by simp⟩
            · obtain ⟨part, hp1, hp2⟩ := ih hmem hc
              rw [hsp] at hp1
              rcases List.mem_cons.mp hp1 with rfl | hp3
              · exact ⟨a :: part, by simp, by simp [hp2]⟩
              · exact ⟨part, by simp [hp3], hp2⟩

lemma parseDims_fails_of_bad {s : List Char}
    (h : (∃ c ∈ s, c.isAlpha = true ∧ keyOfChar c = none) ∨ 2 ≤ s.count '/') :
    ∃ e, parseDims s = .error e := by
  by_cases hs : 2 ≤ s.count '/'
  · -- two or more separators: the two-name unpacking raises
    have hcount : 2 ≤ (stripOnes s).count '/' := by
      rw [count_stripOnes (by decide)]
      exact hs
    have hlen : 3 ≤ (splitSlash (stripOnes s)).length := by
      rw [splitSlash_length]
      omega
    rcases hsp : splitSlash (stripOnes s) with _ | ⟨a, _ | ⟨b, _ | _⟩⟩ <;>
      rw [hsp] at hlen
    · simp at hlen
    · simp at hlen
    · simp at hlen
    · exact ⟨.unpackError, by simp [parseDims, hsp]⟩
  · rcases h with ⟨c, hcs, halpha, hnone⟩ | h2
    · have hc1 : c ≠ '1' := by
        intro hc
        rw [hc] at halpha
        cases halpha
      have hcS : c ≠ '/' := by
        intro hc
        rw [hc] at halpha
        cases halpha
      have hmem : c ∈ stripOnes s := mem_stripOnes hc1 hcs
      obtain ⟨part, hpart, hcp⟩ := mem_splitSlash hmem hcS
      rcases hsp : splitSlash (stripOnes s) with _ | ⟨a, _ | ⟨b, _ | _⟩⟩ <;>
        rw [hsp] at hpart
      · simp at hpart
      · rw [List.mem_singleton] at hpart
        subst hpart
        rw [parseDims_single hsp]
        exact tally_error 1 _ zeroDims ⟨c, hcp, hnone⟩
      · rw [parseDims_pair hsp]
        rcases List.mem_cons.mp hpart with rfl | hpart2
        · obtain ⟨e, he⟩ := tally_error 1 part zeroDims ⟨c, hcp, hnone⟩
          exact ⟨e, by rw [he, exBind_err]⟩
        · rw [List.mem_singleton] at hpart2
          subst hpart2
          cases htall : tally 1 a zeroDims with
          | error e => exact ⟨e, rfl⟩
          | ok d =>
              obtain ⟨e, he⟩ := tally_error (-1) part d ⟨c, hcp, hnone⟩
              exact ⟨e, by rw [exBind_ok]; exact he⟩
      · exact ⟨.unpackError, by simp [parseDims, hsp]⟩
    · exact absurd h2 hs

/-! ### Small accessors used by the claim statements -/

/-- The unit vector of a single base dimension. -/
def dimOfKey (k0 : Key) : Dimensions := fun k => if k = k0 then 1 else 0

/-- The numeric payload of an operator result, whether degraded or
wrapped. -/
def payloadOf : MValue → Value
  | .bare v => v
  | .wrapped m => m.quantity

/-- The dimension vector of an operator result: a degraded bare value
is dimensionless. -/
def dimsOfM : MValue → Dimensions
  | .bare _ => zeroDims
  | .wrapped m => m.dimensions

/-! ### Claim theorems -/

/-- Claim C1: the spec states that addition, subtraction, comparisons
and explicit conversion on mismatched dimensions raise a UnitMismatch
error carrying both canonical dimension strings.  The code instead
prints a fabricated traceback plus a broadcast message holding the
PRETTY unit strings and terminates the process via exit(); UnitError is
defined but never raised.  This theorem evaluates the embedded
operators at the failing inputs 6*m + 2*s, 6*m - 2*s, 2*m == 2*kg,
1*kg < 2*m and (1*m**2)(1*m): each ends in the modelled exit outcome,
never in a raised-and-propagated error value. -/
theorem mismatch_exits_eval :
    madd ⟨.int 6, dimOfKey .L⟩ (.wrapped ⟨.int 2, dimOfKey .T⟩)
        = .error ⟨("m").toList, ("s").toList⟩
    ∧ msub ⟨.int 6, dimOfKey .L⟩ ⟨.int 2, dimOfKey .T⟩
        = .error ⟨("m").toList, ("s").toList⟩
    ∧ meq ⟨.int 2, dimOfKey .L⟩ ⟨.int 2, dimOfKey .M⟩
        = .error ⟨("m").toList, ("kg").toList⟩
    ∧ mlt ⟨.int 1, dimOfKey .M⟩ ⟨.int 2, dimOfKey .L⟩
        = .error ⟨("kg").toList, ("m").toList⟩
    ∧ mcall ⟨.int 1, dimAdd (dimOfKey .L) (dimOfKey .L)⟩ (.wrapped ⟨.int 1, dimOfKey .L⟩)
        = .error ⟨("m²").toList, ("m").toList⟩ := by
  refine ⟨by decide, by decide, by decide, by decide, by decide⟩

/-- Claim C2: the spec states that scaling a dimension vector by a
power with a fractional result raises NonIntegerDimension.  The code
evaluates `v == int(v)` as a discarded expression and then truncates
with int(), so the scaling is total and silently alters exponents:
M * 0.5 collapses to the dimensionless vector, M * 1.5 stays M, and
(3*m)**0.5 degrades to a bare float. -/
theorem dimensions_scale_truncates :
    dimMul (dimOfKey .M) (.real ((1 : ℚ) / 2)) = zeroDims
    ∧ dimMul (dimOfKey .M) (.real ((3 : ℚ) / 2)) = dimOfKey .M
    ∧ mpow ⟨.int 3, dimOfKey .L⟩ (.real ((1 : ℚ) / 2)) = .bare .approx := by
  have h1 : dimMul (dimOfKey .M) (.real ((1 : ℚ) / 2)) = zeroDims := by
    funext k
    cases k <;> simp [dimMul, dimOfKey, intTrunc, zeroDims]
    all_goals norm_num
  have h2 : dimMul (dimOfKey .M) (.real ((3 : ℚ) / 2)) = dimOfKey .M := by
    funext k
    cases k <;> simp [dimMul, dimOfKey, intTrunc]
    all_goals norm_num
  have h3 : dimMul (dimOfKey .L) (.real ((1 : ℚ) / 2)) = zeroDims := by
    funext k
    cases k <;> simp [dimMul, dimOfKey, intTrunc, zeroDims]
    all_goals norm_num
  refine ⟨h1, h2, ?_⟩
  rw [mpow]
  simp only [h3]
  rw [mkM, if_pos canonical_zeroDims]
  simp [vpow]

/-- Claim C3, counterexample: the constructor degrade check compares
`str(dimensions)` of the raw argument with the literal 1, so a call
with the dimension string M/M (or the empty string), both of which
parse to the dimensionless vector, returns a wrapped Quantity holding a
dimensionless vector. -/
theorem construct_str_dimless_wrapper :
    wrapsDimless (mkMeasurement (.int 5) (.str ('M' :: '/' :: 'M' :: []))) = true
    ∧ wrapsDimless (mkMeasurement (.int 5) (.str [])) = true := by
  refine ⟨by decide, by decide⟩

/-- Claim C3, amended: every operator (multiplication, power, division,
the reflected product) degrades a dimensionless result to the bare
payload, and so does a constructor call whose dimensions argument is a
`Dimensions` object; only a constructor call with a dimensionless
notation string other than the literal 1 produces a wrapper holding a
dimensionless vector. -/
theorem degrade_uniform_amended :
    (∀ (q : Value) (d : Dimensions), wrapsDimless (mkMeasurement q (.dims d)) = false)
    ∧ (∀ (x : Measurement) (o : MValue), wrapsDimlessM (mmul x o) = false)
    ∧ (∀ (x : Measurement) (p : Value), wrapsDimlessM (mpow x p) = false)
    ∧ (∀ (v : Value) (o : MValue), wrapsDimlessM (valueMulM v o) = false)
    ∧ (∀ (x : Measurement) (o : MValue), wrapsDimlessM (mdiv x o) = false)
    ∧ wrapsDimless (mkMeasurement (.int 5) (.str ('M' :: '/' :: 'M' :: []))) = true := by
  have hmul : ∀ (x : Measurement) (o : MValue), wrapsDimlessM (mmul x o) = false := by
    intro x o
    cases o with
    | wrapped y => exact wrapsDimlessM_mkM _ _
    | bare v => exact wrapsDimlessM_mkM _ _
  refine ⟨?_, hmul, ?_, ?_, ?_, by decide⟩
  · intro q d
    rw [mkMeasurement_dims, wrapsDimless]
    exact wrapsDimlessM_mkM q d
  · intro x p
    exact wrapsDimlessM_mkM _ _
  · intro v o
    cases o with
    | wrapped y => exact wrapsDimlessM_mkM _ _
    | bare w => rfl
  · intro x o
    cases o with
    | wrapped y => exact hmul x (mpow y (.int (-1)))
    | bare v => exact hmul x (.bare (vpow v (.int (-1))))

/-- Claim C4: parsing the canonical string of any constructible
dimension vector restores that vector exactly. -/
theorem parse_canonical_roundtrip (v : Dimensions) :
    parseDims (canonical v) = .ok v :=
  parseDims_canonical v

/-- Claim C5: a string containing a letter outside the seven-letter
base alphabet, or containing two or more separators, always makes the
parser raise (a KeyError from the tally dict or a ValueError from the
two-name unpacking — the malformed-input failure kind of the spec). -/
theorem parse_malformed_fails (s : List Char)
    (h : (∃ c ∈ s, c.isAlpha = true ∧ keyOfChar c = none) ∨ 2 ≤ s.count '/') :
    ∃ e, parseDims s = .error e :=
  parseDims_fails_of_bad h

theorem parse_malformed_fails_witness :
    (('X').isAlpha = true ∧ keyOfChar 'X' = none)
    ∧ ∃ e, parseDims ('X' :: []) = .error e :=
  ⟨⟨by decide, by decide⟩,
   parse_malformed_fails ('X' :: []) (Or.inl ⟨'X', by decide, by decide, by decide⟩)⟩

/-- Claim C6, counterexample: the constant symbol atm is inserted by
registration, yet registering over a namespace that already binds atm
does not fail — no error is reported and the existing entry is
silently overwritten, because only base and derived symbols are
collision-checked. -/
theorem define_constant_overwrite :
    (define ((("atm").toList, MValue.bare (.int 0)) :: [])).2 = none
    ∧ nsMem registryVars (("atm").toList) = true
    ∧ nsGet (define ((("atm").toList, MValue.bare (.int 0)) :: [])).1 (("atm").toList)
        ≠ some (.bare (.int 0)) := by
  refine ⟨by decide, by decide, by decide⟩

/-- Claim C6, amended: the collision check covers exactly the base and
derived unit symbols.  If one of them is already a key of the target
namespace the call fails with the NameError naming such a symbol and
the namespace is unchanged; otherwise the call succeeds and updates the
namespace with every built entry, silently overwriting constant symbols
that were already present. -/
theorem define_collision_amended (ns : NS) :
    match (define ns).2 with
    | some (.nameCollision s) =>
        s ∈ baseDerivedSymbols ∧ nsMem ns s = true ∧ (define ns).1 = ns
    | some (.parseFailure _e) => False
    | none =>
        baseDerivedSymbols.all (fun s => !(nsMem ns s)) = true
        ∧ (define ns).1 = nsUpdate ns registryVars := by
  rcases define_cases ns with ⟨h2, hfree, h1⟩ | ⟨s, hs, hmem, h2, h1⟩
  · rw [h2]
    refine ⟨?_, h1⟩
    rw [List.all_eq_true]
    intro s hsmem
    rw [hfree s hsmem]
    rfl
  · rw [h2]
    exact ⟨hs, hmem, h1⟩

theorem define_collision_amended_witness :
    (match (define ((("m").toList, MValue.bare (.int 0)) :: [])).2 with
    | some (.nameCollision s) =>
        s ∈ baseDerivedSymbols
        ∧ nsMem ((("m").toList, MValue.bare (.int 0)) :: []) s = true
        ∧ (define ((("m").toList, MValue.bare (.int 0)) :: [])).1
            = ((("m").toList, MValue.bare (.int 0)) :: [])
    | some (.parseFailure _e) => False
    | none =>
        baseDerivedSymbols.all
          (fun s => !(nsMem ((("m").toList, MValue.bare (.int 0)) :: []) s)) = true
        ∧ (define ((("m").toList, MValue.bare (.int 0)) :: [])).1
            = nsUpdate ((("m").toList, MValue.bare (.int 0)) :: []) registryVars) :=
  define_collision_amended ((("m").toList, MValue.bare (.int 0)) :: [])

/-- Claim C7: raising a Quantity whose payload is the int 1 to any
power keeps the payload exactly the int 1 (the source guards with
`self.quantity is 1` and skips numeric power entirely), while the
dimension vector is scaled as usual — and the scaling in this code
never fails. -/
theorem pow_payload_one (d : Dimensions) (p : Value) :
    payloadOf (mpow ⟨.int 1, d⟩ p) = .int 1
    ∧ dimsOfM (mpow ⟨.int 1, d⟩ p) = dimMul d p := by
  rw [mpow]
  simp only [if_pos rfl]
  rw [mkM]
  split_ifs with h
  · exact ⟨rfl, (canonical_eq_one h).symm⟩
  · exact ⟨rfl, rfl⟩

/-- Claim C8: the pretty form returns the derived-unit symbol when the
canonical string is in the DERIVED table, and otherwise renders the
keys sorted by signed exponent ascending — exponent 1 bare, other
exponents with signed superscripts — positives first in that order and
negatives reversed, joined with dots: exactly the wording of the spec,
captured by `prettySpec`. -/
theorem pretty_matches_spec (v : Dimensions) : pretty v = prettySpec v := by
  unfold pretty prettySpec
  cases h : derivedLookup (canonical v) with
  | some s => simp [h]
  | none => simp [h, prettyFold_eq]

/-- Claim C9: the hash of every wrapped Measurement is 0, so any two
wrapped Measurements — equal or not, same dimensions or not — have
equal hashes. -/
theorem hash_always_zero (a b : Measurement) :
    mhash a = 0 ∧ mhash a = mhash b :=
  ⟨rfl, rfl⟩

/-- Claim C10: when registration fails with the name-collision error,
the target namespace is completely unchanged: the loops write only to
the local variables dict and the single namespace update happens after
every check has passed. -/
theorem define_error_leaves_namespace (ns : NS) (e : DefineErr)
    (h : (define ns).2 = some e) : (define ns).1 = ns := by
  rcases define_cases ns with ⟨h2, _, _⟩ | ⟨s, _, _, h2, h1⟩
  · rw [h2] at h
    cases h
  · exact h1

theorem define_error_leaves_namespace_witness :
    (define ((("m").toList, MValue.bare (.int 0)) :: [])).2
        = some (.nameCollision (("m").toList))
    ∧ (define ((("m").toList, MValue.bare (.int 0)) :: [])).1
        = ((("m").toList, MValue.bare (.int 0)) :: []) :=
  ⟨by decide,
   define_error_leaves_namespace ((("m").toList, MValue.bare (.int 0)) :: [])
     (.nameCollision (("m").toList)) (by decide)⟩

end MKS
